import Mathlib

/-!
Verification of the chess-engine core of this repository: the negamax /
alpha-beta search (`Chess::negamax`), the hybrid evaluator with its bounded
material cache (`Chess::hybridEvaluate`), material scoring
(`Chess::evaluateMaterial`), the position hash (`Chess::computeZobristHash`),
the criticality heuristic (`Chess::isCriticalPosition`), the root move
selector (`Chess::updateAI`), the neural-network input encoding
(`ChessEval::encodePosition`), the training guard (`ChessEval::train`) and
the binary model persistence (`ChessEval::saveModel` / `ChessEval::loadModel`).

The board / move-generation engine (`GameState`, `BitMove`) is an external
collaborator of the core (its implementation is not part of the evaluated
sources); it is modelled abstractly through the `Engine` interface below,
following the interface contract of the spec.  Values are modelled as
`Int` with the concrete `std::numeric_limits<int>` endpoints as named
constants; the `int` negations of the search (of the window bounds and of
the returned values) are modelled with two's-complement wrap (`negInt`),
because `-alpha` overflows `int` when `alpha` is `INT_MIN` — which happens
at the search's own entry window — and wraps back to `INT_MIN` on the
target platforms.
-/

/-- `std::numeric_limits<int>::min()`, used as the "-infinity" of the search. -/
def NEG_INF : Int := -(2 ^ 31)

/-- `std::numeric_limits<int>::max()`, used as the "+infinity" of the search. -/
def POS_INF : Int := 2 ^ 31 - 1

/-- Two's-complement wrap of an integer into the 32-bit `int` range, the
effect of C++ `int` overflow on the target platforms. -/
def wrap32 (x : Int) : Int := (x + 2 ^ 31) % 2 ^ 32 - 2 ^ 31

/-- Negation of a C++ `int`: exact except for `INT_MIN`, whose negation
overflows and wraps back to `INT_MIN`. -/
def negInt (x : Int) : Int := wrap32 (-x)

/-- `WHITE` colour constant of the engine (`getCurrentPlayerColor`: WHITE=1). -/
def WHITE : Int := 1

/-- `BLACK` colour constant of the engine (`getCurrentPlayerColor`: BLACK=-1). -/
def BLACK : Int := -1

/-- Modelled from the spec: a `BitMove` of the external move generator —
source square, destination square, and the capture / promotion flags that
`Chess::isCriticalPosition` tests (`move.flags & IsCapture`,
`move.flags & IsPromotion`).  The flag bits are modelled as booleans. -/
structure BMove where
  fromSq : Nat
  toSq : Nat
  isCapture : Bool := false
  isPromotion : Bool := false
deriving DecidableEq, Repr

/-- Piece value of an uppercase piece character, from the `PIECE_VALUES`
table and the `switch` in `Chess::evaluateMaterial` (unlisted characters
contribute 0). -/
def pieceValueOf (upper : Nat) : Int :=
  if upper = 'P'.toNat then 100
  else if upper = 'N'.toNat then 320
  else if upper = 'B'.toNat then 330
  else if upper = 'R'.toNat then 500
  else if upper = 'Q'.toNat then 900
  else if upper = 'K'.toNat then 20000
  else 0

/-- `Chess::evaluateMaterial`: sum piece values over the 64-character board
snapshot, adding for white (uppercase) and subtracting for black; `'0'`
marks an empty square.  Lowercase pieces are uppercased by subtracting 32
from the character code, exactly as the source does. -/
def evaluateMaterial (state : List Char) : Int :=
  state.foldl
    (fun acc piece =>
      if piece = '0' then acc
      else
        let isWhite : Bool := 'A' ≤ piece && piece ≤ 'Z'
        let upper : Nat := if isWhite then piece.toNat else piece.toNat - 32
        acc + (if isWhite then pieceValueOf upper else -(pieceValueOf upper)))
    0

/-- `Chess::computeZobristHash`: xor, over the occupied squares, of
`(piece << (i % 8)) + (i << 8)` (uint64 arithmetic, hence the `% 2^64`),
then xor with a constant when black is to move. -/
def computeZobristHash (state : List Char) (color : Int) : Nat :=
  let h :=
    (List.range 64).foldl
      (fun h i =>
        let piece := state.getD i '0'
        if piece ≠ '0' then
          h ^^^ (((piece.toNat <<< (i % 8)) + (i <<< 8)) % 2 ^ 64)
        else h)
      0
  if color = BLACK then h ^^^ 0x123456789ABCDEF0 else h

/-- Number of occupied squares, as counted by the loop in
`Chess::isCriticalPosition` (`state[i] != '0'` over the 64 squares). -/
def pieceCount (state : List Char) : Nat :=
  (List.range 64).countP (fun i => state.getD i '0' ≠ '0')

/-- `Chess::isCriticalPosition`: critical iff some legal move is a capture,
or at most 12 squares are occupied (endgame threshold), or some legal move
is a promotion.  The unused `depth` parameter of the source is dropped. -/
def isCriticalPosition (state : List Char) (moves : List BMove) : Bool :=
  if moves.any (·.isCapture) then true
  else if pieceCount state ≤ 12 then true
  else if moves.any (·.isPromotion) then true
  else false

/-- Modelled from the spec: the external move-generator interface consumed
by the search (`generateLegalMoves`, `applyMove`, board snapshot, side to
move), plus the neural evaluation `ChessEval::evaluate(state, context)`
abstracted as a function of the position — its value is determined by the
loaded network weights, which are runtime data of the evaluator. -/
structure Engine (σ : Type) where
  moves : σ → List BMove
  push : σ → BMove → σ
  board : σ → List Char
  color : σ → Int
  neural : σ → Int

/-- The reversible game state: current position plus the undo stack that
`GameState::pushMove` pushes onto and `GameState::popState` pops
(spec §3: apply/undo is a strict stack discipline). -/
structure Rev (σ : Type) where
  cur : σ
  hist : List σ
deriving DecidableEq, Repr

/-- `GameState::pushMove`: apply a move, recording the previous position. -/
def pushMove {σ : Type} (E : Engine σ) (r : Rev σ) (m : BMove) : Rev σ :=
  ⟨E.push r.cur m, r.cur :: r.hist⟩

/-- `GameState::popState`: restore the most recently pushed position. -/
def popState {σ : Type} (r : Rev σ) : Rev σ :=
  match r with
  | ⟨_, s :: t⟩ => ⟨s, t⟩
  | ⟨c, []⟩ => ⟨c, []⟩

/-- The material cache `_materialCache` (hash → cached material score),
modelled as an association list in insertion order, and the node counter
`_countMoves`. -/
structure SearchState where
  cache : List (Nat × Int)
  count : Nat
deriving DecidableEq, Repr

/-- `_materialCache.find(hash)`. -/
def lookupC : List (Nat × Int) → Nat → Option Int
  | [], _ => none
  | (k, v) :: t, h => if k = h then some v else lookupC t h

/-- The cache-size limiting in `Chess::hybridEvaluate`: when the map holds
more than 100000 entries, erase half of them. -/
def evictC (c : List (Nat × Int)) : List (Nat × Int) :=
  if 100000 < c.length then c.drop (c.length / 2) else c

/-- `Chess::hybridEvaluate`: return the cached material score on a hash hit;
otherwise evaluate neurally iff the position is critical and with the
material scorer otherwise, and store the material score (always the
material score) in the cache, evicting half of it past 100000 entries. -/
def hybridEval {σ : Type} (E : Engine σ) (g : σ) (st : SearchState) :
    Int × SearchState :=
  match lookupC st.cache (computeZobristHash (E.board g) (E.color g)) with
  | some v => (v, st)
  | none =>
    (if isCriticalPosition (E.board g) (E.moves g) then E.neural g
     else evaluateMaterial (E.board g),
     { st with cache := evictC (st.cache ++
         [(computeZobristHash (E.board g) (E.color g),
           evaluateMaterial (E.board g))]) })

/-- The move loop of `Chess::negamax` (the `for` over `newMoves` with the
alpha-beta cutoff), with the recursive call abstracted as `f`.  The
negations `-beta`, `-alpha` of the child window and `-negamax(...)` of the
child value are C++ `int` negations, modelled by `negInt` (they wrap on
`INT_MIN`, which `beta` receives at the entry window).  Returns
`(bestVal, restored reversible state, search state)`. -/
def abGo {σ : Type} (E : Engine σ)
    (f : Rev σ → Int → Int → SearchState → Int × Rev σ × SearchState) :
    List BMove → Rev σ → Int → Int → Int → SearchState →
      Int × Rev σ × SearchState
  | [], r, best, _, _, st => (best, r, st)
  | m :: ms, r, best, alpha, beta, st =>
    let r1 := pushMove E r m
    let p := f r1 (negInt beta) (negInt alpha) st
    let r3 := popState p.2.1
    let best1 := max best (negInt p.1)
    let alpha1 := max alpha best1
    if beta ≤ alpha1 then (best1, r3, p.2.2)
    else abGo E f ms r3 best1 alpha1 beta p.2.2

/-- `Chess::negamax`: increment `_countMoves`; at depth 0 return
`hybridEvaluate`; with no legal moves return the -10000 checkmate sentinel;
otherwise run the alpha-beta move loop starting from `bestVal = INT_MIN`. -/
def negamax {σ : Type} (E : Engine σ) :
    Nat → Rev σ → Int → Int → SearchState → Int × Rev σ × SearchState
  | 0, r, _, _, st =>
    let st1 : SearchState := { st with count := st.count + 1 }
    let p := hybridEval E r.cur st1
    (p.1, r, p.2)
  | d + 1, r, alpha, beta, st =>
    let st1 : SearchState := { st with count := st.count + 1 }
    let ms := E.moves r.cur
    if ms.isEmpty then (-10000, r, st1)
    else abGo E (fun r' a b s => negamax E d r' a b s) ms r NEG_INF alpha beta st1

/-- The move loop of `Chess::negamax` run full-width: identical to `abGo`
but with no alpha-beta cutoff. -/
def fwGo {σ : Type} (E : Engine σ)
    (f : Rev σ → SearchState → Int × Rev σ × SearchState) :
    List BMove → Rev σ → Int → SearchState → Int × Rev σ × SearchState
  | [], r, best, st => (best, r, st)
  | m :: ms, r, best, st =>
    let r1 := pushMove E r m
    let p := f r1 st
    let r3 := popState p.2.1
    fwGo E f ms r3 (max best (negInt p.1)) p.2.2

/-- `Chess::negamax` run full-width: the same recursion with
`alpha = -infinity`, `beta = +infinity` at every node and no cutoff. -/
def negamaxFull {σ : Type} (E : Engine σ) :
    Nat → Rev σ → SearchState → Int × Rev σ × SearchState
  | 0, r, st =>
    let st1 : SearchState := { st with count := st.count + 1 }
    let p := hybridEval E r.cur st1
    (p.1, r, p.2)
  | d + 1, r, st =>
    let st1 : SearchState := { st with count := st.count + 1 }
    let ms := E.moves r.cur
    if ms.isEmpty then (-10000, r, st1)
    else fwGo E (fun r' s => negamaxFull E d r' s) ms r NEG_INF st1

/-- The pure-evaluation `Chess::negamax` move loop with exact (unbounded)
integer negations: the idealized reference recursion used in the analysis.
The faithful model of the source's wrapping `int` negations is `apGoW`
below; the two coincide on windows whose alpha exceeds `INT_MIN`
(`apGoW_eq_apGo`). -/
def apGo {σ : Type} (E : Engine σ) (f : σ → Int → Int → Int) (g : σ) :
    List BMove → Int → Int → Int → Int
  | [], best, _, _ => best
  | m :: ms, best, alpha, beta =>
    let v := -(f (E.push g m) (-beta) (-alpha))
    let best1 := max best v
    let alpha1 := max alpha best1
    if beta ≤ alpha1 then best1
    else apGo E f g ms best1 alpha1 beta

/-- Pure-evaluation alpha-beta negamax with exact integer negations: the
idealized reference recursion for the analysis (see `ABpW` for the
faithful wrapping model of `Chess::negamax` with a pure leaf evaluation). -/
def ABp {σ : Type} (E : Engine σ) (e : σ → Int) :
    Nat → σ → Int → Int → Int
  | 0, g, _, _ => e g
  | d + 1, g, alpha, beta =>
    let ms := E.moves g
    if ms.isEmpty then -10000
    else apGo E (fun g' a b => ABp E e d g' a b) g ms NEG_INF alpha beta

/-- Full-width negamax with a pure leaf evaluation `e`: the `Chess::negamax`
recursion with no cutoff and no window.  Its negations never overflow for
bounded leaf evaluations (`Fp_bound`), so exact negation is faithful here. -/
def Fp {σ : Type} (E : Engine σ) (e : σ → Int) : Nat → σ → Int
  | 0, g => e g
  | d + 1, g =>
    let ms := E.moves g
    if ms.isEmpty then -10000
    else ms.foldl (fun b m => max b (-(Fp E e d (E.push g m)))) NEG_INF

/-- The move loop of `Chess::negamax` with a pure leaf evaluation and the
source's C++ `int` negations modelled faithfully by `negInt`: with
`alpha = INT_MIN` (the search's entry window), `negInt alpha` wraps back
to `INT_MIN`, inverting the child's window. -/
def apGoW {σ : Type} (E : Engine σ) (f : σ → Int → Int → Int) (g : σ) :
    List BMove → Int → Int → Int → Int
  | [], best, _, _ => best
  | m :: ms, best, alpha, beta =>
    let v := negInt (f (E.push g m) (negInt beta) (negInt alpha))
    let best1 := max best v
    let alpha1 := max alpha best1
    if beta ≤ alpha1 then best1
    else apGoW E f g ms best1 alpha1 beta

/-- `Chess::negamax` with a pure leaf evaluation `e` and the source's
wrapping `int` negations: the faithful pure-evaluation model of the
compiled search. -/
def ABpW {σ : Type} (E : Engine σ) (e : σ → Int) :
    Nat → σ → Int → Int → Int
  | 0, g, _, _ => e g
  | d + 1, g, alpha, beta =>
    let ms := E.moves g
    if ms.isEmpty then -10000
    else apGoW E (fun g' a b => ABpW E e d g' a b) g ms NEG_INF alpha beta

/-- The best-move bookkeeping step of the root loop in `Chess::updateAI`:
a strictly better value clears and restarts the candidate set; a value
within the 10-centipawn `EQUALITY_THRESHOLD` of the best is appended only
when the set is non-empty. -/
def tieStep : Int × List BMove → BMove × Int → Int × List BMove
  | (best, bm), (m, v) =>
    if best < v then (v, [m])
    else if best - 10 ≤ v ∧ bm ≠ [] then (best, bm ++ [m])
    else (best, bm)

/-- The root loop of `Chess::updateAI`: for each shuffled move, push it,
search with `negamax(depth-1, INT_MIN, INT_MAX)` negated, pop it, and
update the running best value and best-move set. -/
def rootLoop {σ : Type} (E : Engine σ) (d : Nat) :
    List BMove → Rev σ → Int → List BMove → SearchState →
      Int × List BMove × Rev σ × SearchState
  | [], r, best, bm, st => (best, bm, r, st)
  | m :: ms, r, best, bm, st =>
    let r1 := pushMove E r m
    let p := negamax E d r1 NEG_INF POS_INF st
    let mv := -p.1
    let r3 := popState p.2.1
    if best < mv then rootLoop E d ms r3 mv [m] p.2.2
    else if best - 10 ≤ mv ∧ bm ≠ [] then rootLoop E d ms r3 best (bm ++ [m]) p.2.2
    else rootLoop E d ms r3 best bm p.2.2

/-- The sequence of `(move, negated search value)` pairs produced at the
root of `Chess::updateAI`, threading the reversible state and the shared
search state exactly as the root loop does. -/
def rootVals {σ : Type} (E : Engine σ) (d : Nat) :
    List BMove → Rev σ → SearchState → List (BMove × Int)
  | [], _, _ => []
  | m :: ms, r, st =>
    let r1 := pushMove E r m
    let p := negamax E d r1 NEG_INF POS_INF st
    (m, -p.1) :: rootVals E d ms (popState p.2.1) p.2.2

/-- Placeholder `BitMove` value (`BitMove()` default construction). -/
def noMove : BMove := ⟨0, 0, false, false⟩

/-- The move emitted by `Chess::updateAI`, given the shuffled legal move
list, the configured search depth (`getAIMAXDepth`, defaulted to 3 when
non-positive), and the uniform random draw `k` used to index the final
best-move set.  `none` models the paths on which no move is made (empty
move list, or `bestVal == negInfinite`). -/
def updateAIMove {σ : Type} (E : Engine σ) (aimaxDepth : Int)
    (moves : List BMove) (r : Rev σ) (st : SearchState) (k : Nat) :
    Option BMove :=
  if moves.isEmpty then none
  else
    let depth : Int := if aimaxDepth ≤ 0 then 3 else aimaxDepth
    let res := rootLoop E (depth - 1).toNat moves r NEG_INF [] st
    let bm := res.2.1
    let chosen := if bm.isEmpty then moves.getD 0 noMove
      else bm.getD (k % bm.length) noMove
    if res.1 = NEG_INF then none else some chosen

/-- A 64-square board holding a single white pawn on square `i` (all other
squares empty).  With one occupied square these positions are "critical"
endgame positions for `Chess::isCriticalPosition` (piece count ≤ 12). -/
def pawnBoard (i : Nat) : List Char :=
  (List.range 64).map (fun j => if j = i then 'P' else '0')

/-- A concrete instantiation of the external move-generator interface with
positions named by numbers, exhibiting a transposition: position 99 is
reachable both under the second root move (via position 2) and the third
root move (via position 3).  All moves are quiet (no capture/promotion
flags); leaf positions hold a single pawn, so they are evaluated as
critical endgame positions. -/
def EC : Engine Nat where
  moves g :=
    match g with
    | 0 => [⟨0, 1, false, false⟩, ⟨0, 2, false, false⟩, ⟨0, 3, false, false⟩]
    | 1 => [⟨1, 10, false, false⟩]
    | 2 => [⟨2, 20, false, false⟩, ⟨2, 99, false, false⟩]
    | 3 => [⟨3, 99, false, false⟩]
    | _ => []
  push _ m := m.toSq
  board g :=
    match g with
    | 10 => pawnBoard 0
    | 20 => pawnBoard 1
    | 99 => pawnBoard 2
    | _ => pawnBoard 3
  color _ := WHITE
  neural g :=
    match g with
    | 10 => 0
    | 20 => -50
    | 99 => 500
    | _ => 0

/-- The initial reversible state at root position 0 with an empty undo stack. -/
def r0 : Rev Nat := ⟨0, []⟩

/-- The initial search state: empty material cache, zero node counter. -/
def st0 : SearchState := ⟨[], 0⟩


theorem apGo_nil {σ : Type} (E : Engine σ)
    (f : σ → Int → Int → Int) (g : σ) (b alpha beta : Int) :
    apGo E f g [] b alpha beta = b := rfl

theorem apGo_cons {σ : Type} (E : Engine σ)
    (f : σ → Int → Int → Int) (g : σ) (m : BMove) (ms : List BMove)
    (b alpha beta : Int) :
    apGo E f g (m :: ms) b alpha beta =
      if beta ≤ max alpha (max b (-(f (E.push g m) (-beta) (-alpha)))) then
        max b (-(f (E.push g m) (-beta) (-alpha)))
      else
        apGo E f g ms (max b (-(f (E.push g m) (-beta) (-alpha))))
          (max alpha (max b (-(f (E.push g m) (-beta) (-alpha))))) beta := rfl

theorem foldlMax_ge_init (h : BMove → Int) :
    ∀ (ms : List BMove) (b : Int), b ≤ ms.foldl (fun a m => max a (h m)) b := by
  intro ms
  induction ms with
  | nil => intro b; simp
  | cons m ms ih =>
    intro b
    simpa using le_trans (le_max_left b (h m)) (ih (max b (h m)))

theorem foldlMax_le (h : BMove → Int) :
    ∀ (ms : List BMove) (b c : Int), b ≤ c → (∀ m ∈ ms, h m ≤ c) →
      ms.foldl (fun a m => max a (h m)) b ≤ c := by
  intro ms
  induction ms with
  | nil => intro b c hb _; simpa using hb
  | cons m ms ih =>
    intro b c hb hm
    simp only [List.foldl_cons]
    exact ih _ _ (max_le hb (hm m (by simp))) (fun x hx => hm x (by simp [hx]))

theorem foldlMax_max (h : BMove → Int) :
    ∀ (ms : List BMove) (b x : Int),
      ms.foldl (fun a m => max a (h m)) (max b x)
        = max (ms.foldl (fun a m => max a (h m)) b) x := by
  intro ms
  induction ms with
  | nil => intro b x; simp
  | cons m ms ih =>
    intro b x
    simp only [List.foldl_cons]
    rw [sup_right_comm, ih]

theorem apGo_ge {σ : Type} (E : Engine σ)
    (f : σ → Int → Int → Int) (g : σ) :
    ∀ (ms : List BMove) (b alpha beta : Int),
      b ≤ apGo E f g ms b alpha beta := by
  intro ms
  induction ms with
  | nil => intro b alpha beta; exact le_refl _
  | cons m ms ih =>
    intro b alpha beta
    rw [apGo_cons]
    split
    · exact le_max_left _ _
    · exact le_trans (le_max_left _ _) (ih _ _ _)

/-- Fail-soft correctness of the alpha-beta move loop of `Chess::negamax`
against the full-width fold, assuming the recursive call `f` is fail-soft
correct against the full-width value `F` on every valid window: a result at
most alpha is an upper bound on the full-width value, a result at least
beta is a lower bound, and a result strictly inside the window is exact. -/
theorem apGo_main {σ : Type} (E : Engine σ)
    (f : σ → Int → Int → Int) (F : σ → Int)
    (hf : ∀ (g : σ) (alpha beta : Int),
      NEG_INF ≤ alpha → alpha < beta → beta ≤ 2 ^ 31 →
      (f g alpha beta ≤ alpha → F g ≤ f g alpha beta) ∧
      (beta ≤ f g alpha beta → f g alpha beta ≤ F g) ∧
      (alpha < f g alpha beta → f g alpha beta < beta → f g alpha beta = F g))
    (g : σ) (beta : Int) (hb2 : beta ≤ 2 ^ 31) :
    ∀ (ms : List BMove) (b alpha : Int),
      NEG_INF ≤ alpha → alpha < beta → b ≤ alpha →
      (apGo E f g ms b alpha beta ≤ alpha →
        ms.foldl (fun a m => max a (-(F (E.push g m)))) b
          ≤ apGo E f g ms b alpha beta) ∧
      (beta ≤ apGo E f g ms b alpha beta →
        apGo E f g ms b alpha beta
          ≤ ms.foldl (fun a m => max a (-(F (E.push g m)))) b) ∧
      (alpha < apGo E f g ms b alpha beta →
        apGo E f g ms b alpha beta < beta →
        apGo E f g ms b alpha beta
          = ms.foldl (fun a m => max a (-(F (E.push g m)))) b) := by
  have hpow : (2 : Int) ^ 31 = 2147483648 := by norm_num
  have hni : NEG_INF = -2147483648 := by norm_num [NEG_INF]
  have hb2' : beta ≤ 2147483648 := by rw [hpow] at hb2; exact hb2
  intro ms
  induction ms with
  | nil =>
    intro b alpha _ _ _
    exact ⟨fun _ => le_refl _, fun _ => le_refl _, fun _ _ => rfl⟩
  | cons m ms ihms =>
    intro b alpha hna hab hba
    have hna' : -2147483648 ≤ alpha := by rw [hni] at hna; exact hna
    have hwin := hf (E.push g m) (-beta) (-alpha)
      (by rw [hni]; omega) (by omega) (by rw [hpow]; omega)
    obtain ⟨H1, H2, H3⟩ := hwin
    rw [apGo_cons, List.foldl_cons]
    set c := f (E.push g m) (-beta) (-alpha) with hc
    set fc := F (E.push g m) with hfc
    by_cases hcut : beta ≤ max alpha (max b (-c))
    · rw [if_pos hcut]
      -- the cutoff fires: the new best is at least beta
      have hvb : beta ≤ max b (-c) := by
        rcases le_max_iff.mp hcut with h | h
        · omega
        · exact h
      have hcb : beta ≤ -c := by
        rcases le_max_iff.mp hvb with h | h
        · omega
        · exact h
      have hfcc : fc ≤ c := H1 (by omega)
      refine ⟨fun h => absurd (le_trans hvb h) (not_le.mpr hab), fun _ => ?_, ?_⟩
      · calc max b (-c) ≤ max b (-fc) := max_le_max (le_refl b) (by omega)
          _ ≤ List.foldl (fun a m => max a (-(F (E.push g m)))) (max b (-fc)) ms :=
            foldlMax_ge_init _ ms _
      · intro _ h2
        exact absurd hvb (not_le.mpr h2)
    · rw [if_neg hcut]
      have hlt : max alpha (max b (-c)) < beta := lt_of_not_le hcut
      have ih := ihms (max b (-c)) (max alpha (max b (-c)))
        (le_trans hna (le_max_left _ _)) hlt (le_max_right _ _)
      obtain ⟨P1, P2, P3⟩ := ih
      have hge : max b (-c) ≤ apGo E f g ms (max b (-c)) (max alpha (max b (-c))) beta :=
        apGo_ge E f g ms _ _ _
      set v := apGo E f g ms (max b (-c)) (max alpha (max b (-c))) beta with hv
      set X := List.foldl (fun a m => max a (-(F (E.push g m)))) b ms with hX
      by_cases hv1 : -c ≤ alpha
      · -- the child failed low: its result is an upper bound
        have hcfc : c ≤ fc := H2 (by omega)
        have halpha' : max alpha (max b (-c)) = alpha := max_eq_left (max_le hba hv1)
        rw [halpha'] at P1 P3
        have hfold : List.foldl (fun a m => max a (-(F (E.push g m)))) (max b (-c)) ms
            = max X (-c) := foldlMax_max _ ms b (-c)
        have hfoldf : List.foldl (fun a m => max a (-(F (E.push g m)))) (max b (-fc)) ms
            = max X (-fc) := foldlMax_max _ ms b (-fc)
        rw [hfold] at P1 P2 P3
        rw [hfoldf]
        refine ⟨fun h => ?_, fun h => ?_, fun h1 h2 => ?_⟩
        · exact le_trans (max_le_max (le_refl X) (by omega)) (P1 h)
        · have hvX : v ≤ X := by
            rcases le_max_iff.mp (P2 h) with h' | h'
            · exact h'
            · omega
          exact le_trans hvX (le_max_left _ _)
        · have hveq : v = max X (-c) := P3 h1 h2
          have hvX : v = X := by
            rcases max_choice X (-c) with h' | h'
            · rw [h'] at hveq; exact hveq
            · rw [h'] at hveq; omega
          have hfX : -fc ≤ X := by omega
          rw [max_eq_left hfX]
          exact hvX
      · -- the child value is strictly above alpha (and below beta: no cutoff)
        push_neg at hv1
        have hvb : -c < beta := by
          have := le_trans (le_max_right b (-c)) (le_max_right alpha (max b (-c)))
          omega
        have hceq : c = fc := H3 (by omega) (by omega)
        have hb1 : max b (-c) = -c := max_eq_right (by omega)
        have halpha2 : max alpha (-c) = -c := max_eq_right (by omega)
        rw [hb1] at P1 P2 P3 hge
        rw [halpha2] at P1 P3
        have hgoalfold : max b (-fc) = -c := by rw [← hceq]; exact hb1
        rw [hgoalfold]
        have hfoldge : -c ≤ List.foldl (fun a m => max a (-(F (E.push g m)))) (-c) ms :=
          foldlMax_ge_init _ ms _
        refine ⟨fun h => ?_, fun h => ?_, fun h1 h2 => ?_⟩
        · exact absurd (lt_of_lt_of_le hv1 hge) (not_lt.mpr h)
        · exact P2 h
        · by_cases hvc : -c < v
          · exact P3 hvc h2
          · push_neg at hvc
            have hup := P1 hvc
            omega

theorem ABp_zero {σ : Type} (E : Engine σ) (e : σ → Int) (g : σ) (alpha beta : Int) :
    ABp E e 0 g alpha beta = e g := rfl

theorem ABp_succ {σ : Type} (E : Engine σ) (e : σ → Int) (d : Nat) (g : σ)
    (alpha beta : Int) :
    ABp E e (d + 1) g alpha beta =
      if (E.moves g).isEmpty then -10000
      else apGo E (fun g' a b => ABp E e d g' a b) g (E.moves g) NEG_INF alpha beta := rfl

theorem Fp_zero {σ : Type} (E : Engine σ) (e : σ → Int) (g : σ) :
    Fp E e 0 g = e g := rfl

theorem Fp_succ {σ : Type} (E : Engine σ) (e : σ → Int) (d : Nat) (g : σ) :
    Fp E e (d + 1) g =
      if (E.moves g).isEmpty then -10000
      else (E.moves g).foldl (fun b m => max b (-(Fp E e d (E.push g m)))) NEG_INF := rfl

/-- Fail-soft correctness of the pure-evaluation alpha-beta negamax against
full-width negamax, on every valid window. -/
theorem ABp_main {σ : Type} (E : Engine σ) (e : σ → Int) :
    ∀ (d : Nat) (g : σ) (alpha beta : Int),
      NEG_INF ≤ alpha → alpha < beta → beta ≤ 2 ^ 31 →
      (ABp E e d g alpha beta ≤ alpha → Fp E e d g ≤ ABp E e d g alpha beta) ∧
      (beta ≤ ABp E e d g alpha beta → ABp E e d g alpha beta ≤ Fp E e d g) ∧
      (alpha < ABp E e d g alpha beta → ABp E e d g alpha beta < beta →
        ABp E e d g alpha beta = Fp E e d g) := by
  intro d
  induction d with
  | zero =>
    intro g alpha beta _ _ _
    exact ⟨fun _ => le_refl _, fun _ => le_refl _, fun _ _ => rfl⟩
  | succ d ihd =>
    intro g alpha beta hna hab hb2
    rw [ABp_succ, Fp_succ]
    cases hms : E.moves g with
    | nil =>
      simp only [List.isEmpty_nil, if_true]
      exact ⟨fun _ => le_refl _, fun _ => le_refl _, fun _ _ => trivial⟩
    | cons m0 ms0 =>
      simp only [List.isEmpty_cons, Bool.false_eq_true, if_false]
      exact apGo_main E (fun g' a b => ABp E e d g' a b) (Fp E e d)
        (fun g' a b ha hab' hb' => ihd g' a b ha hab' hb') g beta hb2
        (m0 :: ms0) NEG_INF alpha hna hab hna

/-- Full-width negamax values are bounded by the evaluation bound (which
also dominates the -10000 checkmate sentinel). -/
theorem Fp_bound {σ : Type} (E : Engine σ) (e : σ → Int) (M : Int)
    (hM : ∀ g, -M ≤ e g ∧ e g ≤ M) (h1 : 10000 ≤ M) :
    ∀ (d : Nat) (g : σ), -M ≤ Fp E e d g ∧ Fp E e d g ≤ M := by
  intro d
  induction d with
  | zero => intro g; exact hM g
  | succ d ih =>
    intro g
    rw [Fp_succ]
    cases hms : E.moves g with
    | nil =>
      simp only [List.isEmpty_nil, if_true]
      omega
    | cons m0 ms0 =>
      simp only [List.isEmpty_cons, Bool.false_eq_true, if_false, List.foldl_cons]
      have hni : NEG_INF = -2147483648 := by norm_num [NEG_INF]
      constructor
      · refine le_trans ?_
          (foldlMax_ge_init (fun m => -(Fp E e d (E.push g m))) ms0 _)
        refine le_trans ?_ (le_max_right NEG_INF _)
        have h := ih (E.push g m0)
        omega
      · apply foldlMax_le
        · apply max_le
          · omega
          · have h := ih (E.push g m0)
            omega
        · intro x _
          have h := ih (E.push g x)
          omega

theorem negInt_eq_neg (x : Int) (h1 : -2147483648 < x) (h2 : x ≤ 2147483648) :
    negInt x = -x := by
  unfold negInt wrap32
  rw [(by norm_num : (2 : Int) ^ 31 = 2147483648),
    (by norm_num : (2 : Int) ^ 32 = 4294967296)]
  omega

theorem apGoW_nil {σ : Type} (E : Engine σ)
    (f : σ → Int → Int → Int) (g : σ) (b alpha beta : Int) :
    apGoW E f g [] b alpha beta = b := rfl

theorem apGoW_cons {σ : Type} (E : Engine σ)
    (f : σ → Int → Int → Int) (g : σ) (m : BMove) (ms : List BMove)
    (b alpha beta : Int) :
    apGoW E f g (m :: ms) b alpha beta =
      if beta ≤ max alpha (max b (negInt (f (E.push g m) (negInt beta) (negInt alpha)))) then
        max b (negInt (f (E.push g m) (negInt beta) (negInt alpha)))
      else
        apGoW E f g ms (max b (negInt (f (E.push g m) (negInt beta) (negInt alpha))))
          (max alpha (max b (negInt (f (E.push g m) (negInt beta) (negInt alpha))))) beta := rfl

theorem ABpW_zero {σ : Type} (E : Engine σ) (e : σ → Int) (g : σ) (alpha beta : Int) :
    ABpW E e 0 g alpha beta = e g := rfl

theorem ABpW_succ {σ : Type} (E : Engine σ) (e : σ → Int) (d : Nat) (g : σ)
    (alpha beta : Int) :
    ABpW E e (d + 1) g alpha beta =
      if (E.moves g).isEmpty then -10000
      else apGoW E (fun g' a b => ABpW E e d g' a b) g (E.moves g) NEG_INF alpha beta := rfl

/-- On windows whose alpha strictly exceeds `INT_MIN` (and whose beta is at
most `INT_MAX`), no `int` negation of the move loop overflows, so the
wrapping loop `apGoW` coincides with the exact-arithmetic loop `apGo`;
its result also stays inside `(INT_MIN, 2^31)` when the list is non-empty,
provided the recursive call does on every such window. -/
theorem apGoW_eq_apGo {σ : Type} (E : Engine σ)
    (fW fI : σ → Int → Int → Int) (g : σ)
    (hf : ∀ (g' : σ) (a b : Int), NEG_INF < a → a < b → b ≤ POS_INF →
      fW g' a b = fI g' a b ∧ NEG_INF < fW g' a b ∧ fW g' a b < 2 ^ 31) :
    ∀ (ms : List BMove) (best alpha beta : Int),
      NEG_INF < alpha → alpha < beta → beta ≤ POS_INF →
      NEG_INF ≤ best → best < 2 ^ 31 →
      apGoW E fW g ms best alpha beta = apGo E fI g ms best alpha beta
      ∧ best ≤ apGoW E fW g ms best alpha beta
      ∧ apGoW E fW g ms best alpha beta < 2 ^ 31
      ∧ (ms ≠ [] → NEG_INF < apGoW E fW g ms best alpha beta) := by
  have hni : NEG_INF = -2147483648 := by norm_num [NEG_INF]
  have hpi : POS_INF = 2147483647 := by norm_num [POS_INF]
  have hpw : (2 : Int) ^ 31 = 2147483648 := by norm_num
  intro ms
  induction ms with
  | nil =>
    intro best alpha beta _ _ _ _ hb2
    exact ⟨rfl, le_refl _, hb2, fun h => absurd rfl h⟩
  | cons m ms ih =>
    intro best alpha beta hna hab hbp hb1 hb2
    have hnb : negInt beta = -beta := negInt_eq_neg beta (by omega) (by omega)
    have hna' : negInt alpha = -alpha := negInt_eq_neg alpha (by omega) (by omega)
    obtain ⟨hceq, hc1, hc2⟩ := hf (E.push g m) (-beta) (-alpha)
      (by omega) (by omega) (by omega)
    have hvn : negInt (fW (E.push g m) (-beta) (-alpha))
        = -(fW (E.push g m) (-beta) (-alpha)) :=
      negInt_eq_neg _ (by omega) (by omega)
    rw [apGoW_cons, apGo_cons, hnb, hna', hvn, hceq]
    rw [hceq] at hc1 hc2
    by_cases hcut : beta ≤ max alpha (max best (-(fI (E.push g m) (-beta) (-alpha))))
    · rw [if_pos hcut, if_pos hcut]
      refine ⟨rfl, le_max_left _ _, max_lt hb2 (by omega), fun _ => ?_⟩
      exact lt_of_lt_of_le (by omega) (le_max_right best _)
    · rw [if_neg hcut, if_neg hcut]
      have hb1' : NEG_INF ≤ max best (-(fI (E.push g m) (-beta) (-alpha))) :=
        le_trans (le_of_lt (by omega)) (le_max_right best _)
      obtain ⟨e1, e2, e3, _⟩ := ih (max best (-(fI (E.push g m) (-beta) (-alpha))))
        (max alpha (max best (-(fI (E.push g m) (-beta) (-alpha))))) beta
        (lt_of_lt_of_le hna (le_max_left _ _)) (lt_of_not_le hcut) hbp
        hb1' (max_lt hb2 (by omega))
      refine ⟨e1, le_trans (le_max_left _ _) e2, e3, fun _ => ?_⟩
      exact lt_of_lt_of_le (lt_of_lt_of_le (by omega) (le_max_right best _)) e2

/-- On windows whose alpha strictly exceeds `INT_MIN`, the wrap-faithful
pure-evaluation search `ABpW` coincides with the exact-arithmetic `ABp`,
and its value stays strictly inside `(INT_MIN, 2^31)`. -/
theorem ABpW_eq_ABp {σ : Type} (E : Engine σ) (e : σ → Int) (M : Int)
    (hM : ∀ g, -M ≤ e g ∧ e g ≤ M) (h2 : M ≤ 2 ^ 30) :
    ∀ (d : Nat) (g : σ) (alpha beta : Int),
      NEG_INF < alpha → alpha < beta → beta ≤ POS_INF →
      ABpW E e d g alpha beta = ABp E e d g alpha beta
      ∧ NEG_INF < ABpW E e d g alpha beta
      ∧ ABpW E e d g alpha beta < 2 ^ 31 := by
  have hni : NEG_INF = -2147483648 := by norm_num [NEG_INF]
  have hpw : (2 : Int) ^ 31 = 2147483648 := by norm_num
  have h30 : (2 : Int) ^ 30 = 1073741824 := by norm_num
  intro d
  induction d with
  | zero =>
    intro g alpha beta _ _ _
    rw [ABpW_zero, ABp_zero]
    have h := hM g
    exact ⟨rfl, by omega, by omega⟩
  | succ d ihd =>
    intro g alpha beta hna hab hbp
    rw [ABpW_succ, ABp_succ]
    cases hms : E.moves g with
    | nil =>
      simp only [List.isEmpty_nil, if_true]
      exact ⟨trivial, by omega, by omega⟩
    | cons m0 ms0 =>
      simp only [List.isEmpty_cons, Bool.false_eq_true, if_false]
      obtain ⟨e1, _, e3, e4⟩ := apGoW_eq_apGo E
        (fun g' a b => ABpW E e d g' a b) (fun g' a b => ABp E e d g' a b) g
        (fun g' a b ha hab' hb' => ihd g' a b ha hab' hb')
        (m0 :: ms0) NEG_INF alpha beta hna hab hbp (le_refl _) (by omega)
      exact ⟨e1, e4 (by simp), e3⟩

/-- Claim C1 (amended): on the code's actual entry window `(INT_MIN,
INT_MAX)`, alpha-beta pruning in `Chess::negamax` can change the returned
value even for a pure bounded leaf evaluation, because the first child's
window negation `-alpha` overflows `int` at `alpha = INT_MIN` and wraps,
inverting that child's window and truncating its search; and the shared
material cache of `Chess::hybridEvaluate` independently changes values
(both exhibited by `negamax_pruning_cex`).  What does hold: for a pure
leaf evaluation bounded by `M` (with `10000 ≤ M ≤ 2^30`, covering the
engine's material scores, neural scores and checkmate sentinel), the same
wrap-faithful recursion started on the non-overflowing full-width window
`(INT_MIN + 1, INT_MAX)` equals full-width negamax: pruning then changes
only the number of nodes visited, never the returned value. -/
theorem ABpW_eq_Fp {σ : Type} (E : Engine σ) (e : σ → Int) (M : Int)
    (hM : ∀ g, -M ≤ e g ∧ e g ≤ M) (h1 : 10000 ≤ M) (h2 : M ≤ 2 ^ 30)
    (d : Nat) (g : σ) :
    ABpW E e d g (NEG_INF + 1) POS_INF = Fp E e d g := by
  have hpi : POS_INF = 2147483647 := by norm_num [POS_INF]
  have hni : NEG_INF = -2147483648 := by norm_num [NEG_INF]
  have h2' : M ≤ 1073741824 := by
    have hp : (2 : Int) ^ 30 = 1073741824 := by norm_num
    omega
  have ht := ABpW_eq_ABp E e M hM h2 d g (NEG_INF + 1) POS_INF
    (by omega) (by omega) (le_refl _)
  rw [ht.1]
  obtain ⟨G1, G2, G3⟩ := ABp_main E e d g (NEG_INF + 1) POS_INF
    (by omega) (by omega) (by rw [hpi]; norm_num)
  obtain ⟨hl, hu⟩ := Fp_bound E e M hM h1 d g
  by_cases ha : ABp E e d g (NEG_INF + 1) POS_INF ≤ NEG_INF + 1
  · exfalso
    have hG := G1 ha
    omega
  · by_cases hbv : POS_INF ≤ ABp E e d g (NEG_INF + 1) POS_INF
    · exfalso
      have hG := G2 hbv
      omega
    · push_neg at ha hbv
      exact G3 ha hbv

theorem popState_pushMove {σ : Type} (E : Engine σ) (r : Rev σ) (m : BMove) :
    popState (pushMove E r m) = r := rfl

theorem abGo_cons {σ : Type} (E : Engine σ)
    (f : Rev σ → Int → Int → SearchState → Int × Rev σ × SearchState)
    (m : BMove) (ms : List BMove) (r : Rev σ) (best alpha beta : Int)
    (st : SearchState) :
    abGo E f (m :: ms) r best alpha beta st =
      if beta ≤ max alpha (max best (negInt (f (pushMove E r m) (negInt beta) (negInt alpha) st).1)) then
        (max best (negInt (f (pushMove E r m) (negInt beta) (negInt alpha) st).1),
          popState (f (pushMove E r m) (negInt beta) (negInt alpha) st).2.1,
          (f (pushMove E r m) (negInt beta) (negInt alpha) st).2.2)
      else
        abGo E f ms (popState (f (pushMove E r m) (negInt beta) (negInt alpha) st).2.1)
          (max best (negInt (f (pushMove E r m) (negInt beta) (negInt alpha) st).1))
          (max alpha (max best (negInt (f (pushMove E r m) (negInt beta) (negInt alpha) st).1)))
          beta
          (f (pushMove E r m) (negInt beta) (negInt alpha) st).2.2 := rfl

/-- The alpha-beta move loop restores the reversible state it was given,
whether it runs to completion or exits early on a cutoff, provided each
recursive call restores the state it was given. -/
theorem abGo_rev {σ : Type} (E : Engine σ)
    (f : Rev σ → Int → Int → SearchState → Int × Rev σ × SearchState)
    (hf : ∀ r alpha beta st, (f r alpha beta st).2.1 = r) :
    ∀ (ms : List BMove) (r : Rev σ) (best alpha beta : Int) (st : SearchState),
      (abGo E f ms r best alpha beta st).2.1 = r := by
  intro ms
  induction ms with
  | nil => intro r best alpha beta st; rfl
  | cons m ms ih =>
    intro r best alpha beta st
    rw [abGo_cons]
    have hr : popState (f (pushMove E r m) (negInt beta) (negInt alpha) st).2.1 = r := by
      rw [hf]; exact popState_pushMove E r m
    split
    · exact hr
    · rw [hr]; exact ih _ _ _ _ _

theorem negamax_zero {σ : Type} (E : Engine σ) (r : Rev σ) (alpha beta : Int)
    (st : SearchState) :
    negamax E 0 r alpha beta st =
      ((hybridEval E r.cur { st with count := st.count + 1 }).1, r,
        (hybridEval E r.cur { st with count := st.count + 1 }).2) := rfl

theorem negamax_succ {σ : Type} (E : Engine σ) (d : Nat) (r : Rev σ)
    (alpha beta : Int) (st : SearchState) :
    negamax E (d + 1) r alpha beta st =
      if (E.moves r.cur).isEmpty then
        (-10000, r, { st with count := st.count + 1 })
      else
        abGo E (fun r' a b s => negamax E d r' a b s) (E.moves r.cur) r
          NEG_INF alpha beta { st with count := st.count + 1 } := rfl

/-- Claim C8: `Chess::negamax` returns the reversible game state exactly
as it received it: every `pushMove` performed inside the search is matched
by exactly one `popState` before the call returns, including when the move
loop exits early on an alpha-beta cutoff, so a search subtree leaves no
net state change. -/
theorem negamax_rev {σ : Type} (E : Engine σ) :
    ∀ (d : Nat) (r : Rev σ) (alpha beta : Int) (st : SearchState),
      (negamax E d r alpha beta st).2.1 = r := by
  intro d
  induction d with
  | zero => intro r alpha beta st; rfl
  | succ d ih =>
    intro r alpha beta st
    rw [negamax_succ]
    split
    · rfl
    · exact abGo_rev E _ (fun r' a b s => ih r' a b s) _ _ _ _ _ _

theorem tieStep_pair (best : Int) (bm : List BMove) (m : BMove) (v : Int) :
    tieStep (best, bm) (m, v) =
      if best < v then (v, [m])
      else if best - 10 ≤ v ∧ bm ≠ [] then (best, bm ++ [m])
      else (best, bm) := rfl

theorem rootLoop_cons {σ : Type} (E : Engine σ) (d : Nat) (m : BMove)
    (ms : List BMove) (r : Rev σ) (best : Int) (bm : List BMove)
    (st : SearchState) :
    rootLoop E d (m :: ms) r best bm st =
      if best < -(negamax E d (pushMove E r m) NEG_INF POS_INF st).1 then
        rootLoop E d ms (popState (negamax E d (pushMove E r m) NEG_INF POS_INF st).2.1)
          (-(negamax E d (pushMove E r m) NEG_INF POS_INF st).1) [m]
          (negamax E d (pushMove E r m) NEG_INF POS_INF st).2.2
      else if best - 10 ≤ -(negamax E d (pushMove E r m) NEG_INF POS_INF st).1 ∧ bm ≠ [] then
        rootLoop E d ms (popState (negamax E d (pushMove E r m) NEG_INF POS_INF st).2.1)
          best (bm ++ [m])
          (negamax E d (pushMove E r m) NEG_INF POS_INF st).2.2
      else
        rootLoop E d ms (popState (negamax E d (pushMove E r m) NEG_INF POS_INF st).2.1)
          best bm
          (negamax E d (pushMove E r m) NEG_INF POS_INF st).2.2 := rfl

theorem rootVals_cons {σ : Type} (E : Engine σ) (d : Nat) (m : BMove)
    (ms : List BMove) (r : Rev σ) (st : SearchState) :
    rootVals E d (m :: ms) r st =
      (m, -(negamax E d (pushMove E r m) NEG_INF POS_INF st).1) ::
        rootVals E d ms (popState (negamax E d (pushMove E r m) NEG_INF POS_INF st).2.1)
          (negamax E d (pushMove E r m) NEG_INF POS_INF st).2.2 := rfl

/-- The best-value / best-move bookkeeping of the `Chess::updateAI` root
loop is the fold of the `tieStep` selection rule over the sequence of
(move, negated search value) pairs. -/
theorem rootLoop_foldl {σ : Type} (E : Engine σ) (d : Nat) :
    ∀ (ms : List BMove) (r : Rev σ) (best : Int) (bm : List BMove)
      (st : SearchState),
      ((rootLoop E d ms r best bm st).1, (rootLoop E d ms r best bm st).2.1)
        = (rootVals E d ms r st).foldl tieStep (best, bm) := by
  intro ms
  induction ms with
  | nil => intro r best bm st; rfl
  | cons m ms ih =>
    intro r best bm st
    rw [rootLoop_cons, rootVals_cons, List.foldl_cons, tieStep_pair]
    by_cases h1 : best < -(negamax E d (pushMove E r m) NEG_INF POS_INF st).1
    · rw [if_pos h1, if_pos h1]
      exact ih _ _ _ _
    · rw [if_neg h1, if_neg h1]
      by_cases h2 : best - 10 ≤ -(negamax E d (pushMove E r m) NEG_INF POS_INF st).1 ∧ bm ≠ []
      · rw [if_pos h2, if_pos h2]
        exact ih _ _ _ _
      · rw [if_neg h2, if_neg h2]
        exact ih _ _ _ _

theorem isEmpty_false_of_ne_nil {α : Type} {l : List α} (h : l ≠ []) :
    l.isEmpty = false := by
  cases l with
  | nil => exact absurd rfl h
  | cons a t => rfl

/-- The evaluation context of `ChessEval` (`PositionContext` in
`ChessEval.h`): side to move and the four castling-rights flags. -/
structure PositionContext where
  whiteToMove : Bool := true
  whiteCastleKingside : Bool := false
  whiteCastleQueenside : Bool := false
  blackCastleKingside : Bool := false
  blackCastleQueenside : Bool := false
deriving DecidableEq, Repr

/-- `INPUT_SIZE` of `ChessEval.h`: 64 squares x 12 piece classes plus the
5 context features. -/
def INPUT_SIZE : Nat := 64 * 12 + 5

/-- `HIDDEN1_SIZE` of `ChessEval.h`. -/
def HIDDEN1_SIZE : Nat := 256

/-- `HIDDEN2_SIZE` of `ChessEval.h`. -/
def HIDDEN2_SIZE : Nat := 64

/-- `OUTPUT_SIZE` of `ChessEval.h`. -/
def OUTPUT_SIZE : Nat := 1

/-- The `pieceLookup` table of `ChessEval::encodePosition`: a 256-entry
static array in which only the twelve piece characters are assigned; the
remaining entries are zero-initialized, so every unknown character maps to
index 0 — the same index as `'P'` (the source comments on this:
"piece_idx will be 0 for unknown characters"). -/
def pieceLookup (c : Char) : Nat :=
  if c = 'P' then 0
  else if c = 'R' then 1
  else if c = 'N' then 2
  else if c = 'B' then 3
  else if c = 'Q' then 4
  else if c = 'K' then 5
  else if c = 'p' then 6
  else if c = 'r' then 7
  else if c = 'n' then 8
  else if c = 'b' then 9
  else if c = 'q' then 10
  else if c = 'k' then 11
  else 0

/-- One iteration of the board loop in `ChessEval::encodePosition`: a
non-empty square sets `encoded[i + piece_idx * 64] = 1`.  The 0.0f/1.0f
one-hot entries are modelled as the integers 0/1 (the two float values are
exact). -/
def encStep (state : List Char) (enc : List Int) (i : Nat) : List Int :=
  if state.getD i '0' ≠ '0' then
    enc.set (i + pieceLookup (state.getD i '0') * 64) 1
  else enc

/-- The board part of `ChessEval::encodePosition`: the single pass over the
64 squares, starting from the zero vector of length `INPUT_SIZE`. -/
def encBoard (state : List Char) : List Int :=
  (List.range 64).foldl (encStep state) (List.replicate INPUT_SIZE 0)

/-- `ChessEval::encodePosition`: the one-hot board encoding followed by the
five context features at indices `base .. base+4` (`base = 64 * 12`), in
the fixed order side-to-move, white kingside, white queenside, black
kingside, black queenside. -/
def encodePosition (state : List Char) (ctx : PositionContext) : List Int :=
  (((((encBoard state).set (64 * 12) (if ctx.whiteToMove then 1 else 0)).set
      (64 * 12 + 1) (if ctx.whiteCastleKingside then 1 else 0)).set
      (64 * 12 + 2) (if ctx.whiteCastleQueenside then 1 else 0)).set
      (64 * 12 + 3) (if ctx.blackCastleKingside then 1 else 0)).set
      (64 * 12 + 4) (if ctx.blackCastleQueenside then 1 else 0)

set_option maxHeartbeats 1000000 in
theorem pieceLookup_lt (c : Char) : pieceLookup c < 12 := by
  unfold pieceLookup
  repeat' split
  all_goals omega

theorem getD_set (l : List Int) :
    ∀ (i j : Nat) (v : Int),
      (l.set i v).getD j 0 = if i = j ∧ j < l.length then v else l.getD j 0 := by
  induction l with
  | nil => intro i j v; simp [List.set]
  | cons a t ih =>
    intro i j v
    cases i with
    | zero =>
      cases j with
      | zero => simp
      | succ j => simp
    | succ i =>
      cases j with
      | zero => simp
      | succ j =>
        simp only [List.set, List.getD_cons_succ, List.length_cons, ih i j v]
        by_cases h : i = j ∧ j < t.length
        · rw [if_pos h, if_pos ⟨by omega, by omega⟩]
        · rw [if_neg h, if_neg (by omega)]

theorem getD_replicate_zero : ∀ (n j : Nat), (List.replicate n (0 : Int)).getD j 0 = 0 := by
  intro n
  induction n with
  | zero => intro j; simp
  | succ n ih =>
    intro j
    cases j with
    | zero => simp [List.replicate]
    | succ j => simp only [List.replicate, List.getD_cons_succ]; exact ih j

theorem encStep_eq (state : List Char) (enc : List Int) (i : Nat) :
    encStep state enc i =
      if state.getD i '0' ≠ '0' then
        enc.set (i + pieceLookup (state.getD i '0') * 64) 1
      else enc := rfl

theorem encBoard_aux_length (state : List Char) :
    ∀ (n : Nat),
      ((List.range n).foldl (encStep state) (List.replicate INPUT_SIZE 0)).length
        = INPUT_SIZE := by
  intro n
  induction n with
  | zero => simp
  | succ n ih =>
    rw [List.range_succ, List.foldl_append, List.foldl_cons, List.foldl_nil]
    unfold encStep
    split
    · rw [List.length_set]; exact ih
    · exact ih

theorem encBoard_aux_getD (state : List Char) :
    ∀ (n : Nat), n ≤ 64 → ∀ (j : Nat), j < 768 →
      ((List.range n).foldl (encStep state) (List.replicate INPUT_SIZE 0)).getD j 0
        = if j % 64 < n ∧ state.getD (j % 64) '0' ≠ '0'
             ∧ pieceLookup (state.getD (j % 64) '0') = j / 64 then 1 else 0 := by
  intro n
  induction n with
  | zero =>
    intro _ j hj
    rw [if_neg (by intro h; exact absurd h.1 (by omega))]
    simp only [List.range_zero, List.foldl_nil]
    exact getD_replicate_zero _ _
  | succ n ih =>
    intro hn j hj
    rw [List.range_succ, List.foldl_append, List.foldl_cons, List.foldl_nil]
    rw [encStep_eq]
    by_cases hocc : state.getD n '0' ≠ '0'
    · rw [if_pos hocc, getD_set]
      have hlen := encBoard_aux_length state n
      have hpl : pieceLookup (state.getD n '0') < 12 := pieceLookup_lt _
      by_cases heq : n + pieceLookup (state.getD n '0') * 64 = j
      · rw [if_pos ⟨heq, by rw [hlen]; unfold INPUT_SIZE; omega⟩]
        have hmod : j % 64 = n := by omega
        have hdiv : j / 64 = pieceLookup (state.getD n '0') := by omega
        rw [if_pos ⟨by omega, by rw [hmod]; exact hocc, by rw [hmod, hdiv]⟩]
      · rw [if_neg (fun h => heq h.1), ih (by omega) j hj]
        by_cases hmod : j % 64 = n
        · rw [if_neg (by intro h; exact absurd h.1 (by omega))]
          rw [if_neg ?_]
          intro h
          apply heq
          have hlook := h.2.2
          rw [hmod] at hlook
          omega
        · by_cases hc : j % 64 < n ∧ state.getD (j % 64) '0' ≠ '0'
              ∧ pieceLookup (state.getD (j % 64) '0') = j / 64
          · rw [if_pos hc, if_pos ⟨by omega, hc.2⟩]
          · rw [if_neg hc, if_neg (fun h => hc ⟨by omega, h.2⟩)]
    · rw [if_neg hocc, ih (by omega) j hj]
      push_neg at hocc
      by_cases hmod : j % 64 = n
      · rw [if_neg (by intro h; exact absurd h.1 (by omega))]
        rw [if_neg ?_]
        intro h
        have hne := h.2.1
        rw [hmod] at hne
        exact hne hocc
      · by_cases hc : j % 64 < n ∧ state.getD (j % 64) '0' ≠ '0'
            ∧ pieceLookup (state.getD (j % 64) '0') = j / 64
        · rw [if_pos hc, if_pos ⟨by omega, hc.2⟩]
        · rw [if_neg hc, if_neg (fun h => hc ⟨by omega, h.2⟩)]

theorem encBoard_length (state : List Char) :
    (encBoard state).length = INPUT_SIZE :=
  encBoard_aux_length state 64

theorem encBoard_getD (state : List Char) (j : Nat) (hj : j < 768) :
    (encBoard state).getD j 0
      = if state.getD (j % 64) '0' ≠ '0'
           ∧ pieceLookup (state.getD (j % 64) '0') = j / 64 then 1 else 0 := by
  rw [show encBoard state
      = (List.range 64).foldl (encStep state) (List.replicate INPUT_SIZE 0) from rfl]
  rw [encBoard_aux_getD state 64 (le_refl _) j hj]
  by_cases hc : state.getD (j % 64) '0' ≠ '0'
      ∧ pieceLookup (state.getD (j % 64) '0') = j / 64
  · rw [if_pos ⟨by omega, hc⟩, if_pos hc]
  · rw [if_neg (fun h => hc h.2), if_neg hc]

theorem encodePosition_length (state : List Char) (ctx : PositionContext) :
    (encodePosition state ctx).length = INPUT_SIZE := by
  unfold encodePosition
  simp only [List.length_set]
  exact encBoard_length state

theorem encodePosition_board (state : List Char) (ctx : PositionContext)
    (j : Nat) (hj : j < 768) :
    (encodePosition state ctx).getD j 0 = (encBoard state).getD j 0 := by
  unfold encodePosition
  rw [getD_set, if_neg (by intro h; exact absurd h.1 (by omega))]
  rw [getD_set, if_neg (by intro h; exact absurd h.1 (by omega))]
  rw [getD_set, if_neg (by intro h; exact absurd h.1 (by omega))]
  rw [getD_set, if_neg (by intro h; exact absurd h.1 (by omega))]
  rw [getD_set, if_neg (by intro h; exact absurd h.1 (by omega))]

theorem encodePosition_flags (state : List Char) (ctx : PositionContext) :
    (encodePosition state ctx).getD (64 * 12) 0 = (if ctx.whiteToMove then 1 else 0)
    ∧ (encodePosition state ctx).getD (64 * 12 + 1) 0
        = (if ctx.whiteCastleKingside then 1 else 0)
    ∧ (encodePosition state ctx).getD (64 * 12 + 2) 0
        = (if ctx.whiteCastleQueenside then 1 else 0)
    ∧ (encodePosition state ctx).getD (64 * 12 + 3) 0
        = (if ctx.blackCastleKingside then 1 else 0)
    ∧ (encodePosition state ctx).getD (64 * 12 + 4) 0
        = (if ctx.blackCastleQueenside then 1 else 0) := by
  unfold encodePosition
  refine ⟨?_, ?_, ?_, ?_, ?_⟩ <;>
    simp [getD_set, List.length_set, encBoard_length, INPUT_SIZE]

/-- The `TrainingMetrics` record of `ChessEval.h`.  Float-valued fields are
modelled over an abstract scalar type `F`: persistence copies their raw
bytes verbatim, so bit-identity is equality of `F` values. -/
structure TrainingMetrics (F : Type) where
  positions_trained : Int
  iterations : Int
  last_loss : F
  average_loss : F
  best_loss : F
  initial_average_error : F
  running_average_error : F
  error_window_size : Int
deriving DecidableEq, Repr

/-- The persistent state of a `ChessEval` instance: the three weight
matrices, three bias vectors, training metrics, and the board-state
tracking fields written by `saveModel`. -/
structure EvalState (F : Type) where
  weights1 : List (List F)
  bias1 : List F
  weights2 : List (List F)
  bias2 : List F
  weights3 : List (List F)
  bias3 : List F
  metrics : TrainingMetrics F
  castleStatus : Int
  currentTurnNo : Int
deriving DecidableEq, Repr

/-- The binary model-file layout written by `ChessEval::saveModel` and read
by `ChessEval::loadModel`: magic number, the four architecture dimensions,
the six weight/bias blocks (with their stored row/element counts, which the
matrix/vector readers reproduce), the metrics record, and the two
board-state ints.  The byte stream is modelled at field granularity: the
reader consumes fields in exactly this order, and raw byte copies of
scalars are value-preserving. -/
structure ModelFile (F : Type) where
  magic : Nat
  input_size : Int
  hidden1_size : Int
  hidden2_size : Int
  output_size : Int
  w1 : List (List F)
  b1 : List F
  w2 : List (List F)
  b2 : List F
  w3 : List (List F)
  b3 : List F
  metrics : TrainingMetrics F
  castleStatus : Int
  currentTurnNo : Int
deriving DecidableEq, Repr

/-- The `MAGIC_NUMBER` constant of `ChessEval::saveModel` (0xDEADBEAF). -/
def MAGIC_NUMBER : Nat := 0xDEADBEAF

/-- `ChessEval::saveModel`: write the magic number, the current
architecture dimensions, all weights and biases, the metrics record and
the board-state fields. -/
def saveModel {F : Type} (s : EvalState F) : ModelFile F :=
  { magic := MAGIC_NUMBER
    input_size := (INPUT_SIZE : Int)
    hidden1_size := (HIDDEN1_SIZE : Int)
    hidden2_size := (HIDDEN2_SIZE : Int)
    output_size := (OUTPUT_SIZE : Int)
    w1 := s.weights1, b1 := s.bias1
    w2 := s.weights2, b2 := s.bias2
    w3 := s.weights3, b3 := s.bias3
    metrics := s.metrics
    castleStatus := s.castleStatus
    currentTurnNo := s.currentTurnNo }

/-- `ChessEval::loadModel`: fail (returning the prior state untouched) when
the file is missing, the stored magic number differs from `MAGIC_NUMBER`,
or any stored architecture dimension differs from the current
configuration; otherwise install all stored weights, biases and metrics,
and then overwrite `metrics.initial_average_error` with the loaded
`running_average_error` (the assignment after the reads in the source). -/
def loadModel {F : Type} (file : Option (ModelFile F)) (s : EvalState F) :
    Bool × EvalState F :=
  match file with
  | none => (false, s)
  | some f =>
    if f.magic ≠ MAGIC_NUMBER then (false, s)
    else if f.input_size ≠ (INPUT_SIZE : Int) ∨ f.hidden1_size ≠ (HIDDEN1_SIZE : Int)
        ∨ f.hidden2_size ≠ (HIDDEN2_SIZE : Int) ∨ f.output_size ≠ (OUTPUT_SIZE : Int) then
      (false, s)
    else
      (true,
        { weights1 := f.w1, bias1 := f.b1
          weights2 := f.w2, bias2 := f.b2
          weights3 := f.w3, bias3 := f.b3
          metrics := { f.metrics with initial_average_error := f.metrics.running_average_error }
          castleStatus := f.castleStatus
          currentTurnNo := f.currentTurnNo })

/-- `ChessEval::train`: the guard at the top skips training entirely when
the target magnitude exceeds the checkmate-scale threshold 5000; the
gradient step performed otherwise (forward pass, backpropagation and
metrics update, all floating-point) is abstracted as `stepFn`, since the
guarded property holds for every possible behaviour of that step. -/
def train {F : Type}
    (stepFn : EvalState F → List Char → Int → F → PositionContext → EvalState F)
    (s : EvalState F) (state : List Char) (stockfish_eval : Int)
    (learning_rate : F) (ctx : PositionContext) : EvalState F :=
  if 5000 < |stockfish_eval| then s
  else stepFn s state stockfish_eval learning_rate ctx

theorem lookupC_append_of_none (h : Nat) :
    ∀ (c l : List (Nat × Int)), lookupC c h = none →
      lookupC (c ++ l) h = lookupC l h := by
  intro c
  induction c with
  | nil => intro l _; rfl
  | cons a t ih =>
    intro l hl
    obtain ⟨k, v⟩ := a
    rw [lookupC] at hl
    rw [List.cons_append, lookupC]
    split at hl
    · exact absurd hl (by simp)
    · rename_i hk
      rw [if_neg hk]
      exact ih l hl

theorem lookupC_drop_of_none (h : Nat) :
    ∀ (c : List (Nat × Int)) (k : Nat), lookupC c h = none →
      lookupC (c.drop k) h = none := by
  intro c
  induction c with
  | nil => intro k _; simp [lookupC]
  | cons a t ih =>
    intro k hl
    obtain ⟨k0, v0⟩ := a
    cases k with
    | zero => exact hl
    | succ k =>
      rw [List.drop_succ_cons]
      rw [lookupC] at hl
      split at hl
      · exact absurd hl (by simp)
      · exact ih k hl

theorem hybridEval_hit {σ : Type} (E : Engine σ) (g : σ) (st : SearchState)
    (v : Int)
    (h : lookupC st.cache (computeZobristHash (E.board g) (E.color g)) = some v) :
    hybridEval E g st = (v, st) := by
  unfold hybridEval
  rw [h]

theorem hybridEval_miss {σ : Type} (E : Engine σ) (g : σ) (st : SearchState)
    (h : lookupC st.cache (computeZobristHash (E.board g) (E.color g)) = none) :
    hybridEval E g st =
      (if isCriticalPosition (E.board g) (E.moves g) then E.neural g
       else evaluateMaterial (E.board g),
       { st with cache := evictC (st.cache ++
           [(computeZobristHash (E.board g) (E.color g),
             evaluateMaterial (E.board g))]) }) := by
  unfold hybridEval
  rw [h]

theorem isCriticalPosition_iff (state : List Char) (moves : List BMove) :
    isCriticalPosition state moves = true ↔
      (moves.any (·.isCapture) = true ∨ pieceCount state ≤ 12
        ∨ moves.any (·.isPromotion) = true) := by
  unfold isCriticalPosition
  split_ifs with h1 h2 h3 <;> simp_all

theorem lookupC_evict_insert (c : List (Nat × Int)) (h : Nat) (m : Int)
    (hnone : lookupC c h = none) :
    lookupC (evictC (c ++ [(h, m)])) h = some m := by
  unfold evictC
  split
  · have hk : (c ++ [(h, m)]).length / 2 ≤ c.length := by
      rw [List.length_append]
      simp only [List.length_cons, List.length_nil]
      omega
    rw [List.drop_append_of_le_length hk]
    rw [lookupC_append_of_none h _ _ (lookupC_drop_of_none h c _ hnone)]
    simp [lookupC]
  · rw [lookupC_append_of_none h c _ hnone]
    simp [lookupC]

/-- Claim C2: `Chess::hybridEvaluate` returns the cached score unchanged on
a hash hit (whatever the position's criticality); on a miss it returns the
neural evaluation exactly when some legal move is a capture, or at most 12
squares are occupied, or some legal move is a promotion — and the material
score otherwise — and it always stores the material score (never the
neural score) in the cache under the position hash. -/
theorem hybridEvaluate_spec {σ : Type} (E : Engine σ) (g : σ) (st : SearchState) :
    (∀ v, lookupC st.cache (computeZobristHash (E.board g) (E.color g)) = some v →
      hybridEval E g st = (v, st)) ∧
    (lookupC st.cache (computeZobristHash (E.board g) (E.color g)) = none →
      (hybridEval E g st).1
        = (if (E.moves g).any (·.isCapture) = true ∨ pieceCount (E.board g) ≤ 12
              ∨ (E.moves g).any (·.isPromotion) = true
           then E.neural g else evaluateMaterial (E.board g)) ∧
      (hybridEval E g st).2.cache
        = evictC (st.cache ++ [(computeZobristHash (E.board g) (E.color g),
            evaluateMaterial (E.board g))]) ∧
      lookupC (hybridEval E g st).2.cache
          (computeZobristHash (E.board g) (E.color g))
        = some (evaluateMaterial (E.board g))) := by
  constructor
  · intro v hv
    exact hybridEval_hit E g st v hv
  · intro hn
    rw [hybridEval_miss E g st hn]
    refine ⟨?_, rfl, ?_⟩
    · by_cases hcrit : isCriticalPosition (E.board g) (E.moves g) = true
      · rw [if_pos hcrit, if_pos ((isCriticalPosition_iff _ _).mp hcrit)]
      · rw [if_neg hcrit, if_neg (fun hd => hcrit ((isCriticalPosition_iff _ _).mpr hd))]
    · exact lookupC_evict_insert st.cache _ _ hn

theorem hybridEvaluate_spec_witness :
    (hybridEval EC 10 st0).1 = EC.neural 10
    ∧ lookupC (hybridEval EC 10 st0).2.cache
        (computeZobristHash (EC.board 10) (EC.color 10)) = some 100 := by
  have h := (hybridEvaluate_spec EC 10 st0).2 (by decide)
  exact ⟨h.1.trans (by decide), h.2.2.trans (by decide)⟩

/-- Claim C9: the material cache never exceeds 100000 entries after a
`Chess::hybridEvaluate` call, because an insertion that pushes its size
past 100000 is followed by the eviction of half of the entries. -/
theorem hybridEvaluate_cache_bound {σ : Type} (E : Engine σ) (g : σ)
    (st : SearchState) (h : st.cache.length ≤ 100000) :
    (hybridEval E g st).2.cache.length ≤ 100000 := by
  cases hl : lookupC st.cache (computeZobristHash (E.board g) (E.color g)) with
  | some v => rw [hybridEval_hit E g st v hl]; exact h
  | none =>
    rw [hybridEval_miss E g st hl]
    show (evictC _).length ≤ 100000
    unfold evictC
    split
    · rename_i hlen
      rw [List.length_drop]
      rw [List.length_append] at hlen ⊢
      simp only [List.length_cons, List.length_nil] at hlen ⊢
      omega
    · rename_i hlen
      rw [not_lt] at hlen
      exact hlen

theorem hybridEvaluate_cache_bound_witness :
    (hybridEval EC 10 st0).2.cache.length ≤ 100000 :=
  hybridEvaluate_cache_bound EC 10 st0 (by decide)

theorem alphabeta_fullwidth_guarded_witness :
    ABpW EC (fun _ => 0) 2 0 (NEG_INF + 1) POS_INF = Fp EC (fun _ => 0) 2 0
    ∧ Fp EC (fun _ => 0) 2 0 = 0 :=
  ⟨ABpW_eq_Fp EC (fun _ => 0) 10000 (fun _ => ⟨by norm_num, by norm_num⟩)
    (by norm_num) (by norm_num) 2 0, by decide⟩

/-- A two-level game tree for the window-overflow counterexample: the root
has a single move to position 1, which has two moves to the leaves 10 and
11.  All positions carry a quiet single-pawn board. -/
def E2 : Engine Nat where
  moves g :=
    match g with
    | 0 => [⟨0, 1, false, false⟩]
    | 1 => [⟨1, 10, false, false⟩, ⟨1, 11, false, false⟩]
    | _ => []
  push _ m := m.toSq
  board _ := pawnBoard 3
  color _ := WHITE
  neural _ := 0

/-- A pure, bounded leaf evaluation for `E2`. -/
def e2 : Nat → Int := fun g => if g = 10 then -10 else if g = 11 then -100 else 0

/-- Claim C1 (counterexample): pruning changes the returned value of
`negamax(state, d, INT_MIN, INT_MAX)` in two independent ways.  First,
through the shared material cache: on engine `EC`, which transposes to
position 99 under two root moves, the pruned run skips the first visit of
99, so its second visit is a cache miss answered by the neural evaluator
(root value 500), while the full-width run has cached 99's material score
at its first visit (root value 100).  Second, through `int` overflow of
the window negation even with a pure bounded leaf evaluation: on engine
`E2`, the first child receives the window `(-INT_MAX, INT_MIN)` — because
`-alpha` with `alpha = INT_MIN` wraps back to `INT_MIN` — and cuts off
after its first move, giving root value -10 where full-width returns
-100. -/
theorem negamax_pruning_cex :
    ((negamax EC 2 r0 NEG_INF POS_INF st0).1 = 500
      ∧ (negamaxFull EC 2 r0 st0).1 = 100
      ∧ (negamax EC 2 r0 NEG_INF POS_INF st0).1 ≠ (negamaxFull EC 2 r0 st0).1)
    ∧ (ABpW E2 e2 2 0 NEG_INF POS_INF = -10
      ∧ Fp E2 e2 2 0 = -100
      ∧ ABpW E2 e2 2 0 NEG_INF POS_INF ≠ Fp E2 e2 2 0) :=
  ⟨⟨by decide, by decide, by decide⟩, ⟨by decide, by decide, by decide⟩⟩

/-- Claim C3: the root loop of `Chess::updateAI` computes exactly the fold
of the `tieStep` rule — a strictly better value clears and restarts the
best-move set, a value within 10 centipawns of the best is appended only
when the set is non-empty — over the sequence of negated `negamax(depth-1,
INT_MIN, INT_MAX)` values of the shuffled moves, and the emitted move is
the element of the final best-move set selected by the uniform random
draw `k`. -/
theorem updateAI_selection {σ : Type} (E : Engine σ) (aimaxDepth : Int)
    (moves : List BMove) (r : Rev σ) (st : SearchState) (k : Nat) (d : Nat)
    (hd : d = ((if aimaxDepth ≤ 0 then (3 : Int) else aimaxDepth) - 1).toNat)
    (hne : moves ≠ []) :
    ((rootLoop E d moves r NEG_INF [] st).1,
      (rootLoop E d moves r NEG_INF [] st).2.1)
      = (rootVals E d moves r st).foldl tieStep (NEG_INF, [])
    ∧ ((rootLoop E d moves r NEG_INF [] st).2.1 ≠ [] →
        (rootLoop E d moves r NEG_INF [] st).1 ≠ NEG_INF →
        updateAIMove E aimaxDepth moves r st k
          = some ((rootLoop E d moves r NEG_INF [] st).2.1.getD
              (k % (rootLoop E d moves r NEG_INF [] st).2.1.length) noMove)) := by
  constructor
  · exact rootLoop_foldl E d moves r NEG_INF [] st
  · intro hbm hbest
    unfold updateAIMove
    rw [isEmpty_false_of_ne_nil hne]
    simp only [Bool.false_eq_true, if_false]
    rw [← hd]
    rw [if_neg hbest]
    rw [isEmpty_false_of_ne_nil hbm]
    simp only [Bool.false_eq_true, if_false]

theorem updateAI_selection_witness :
    updateAIMove EC 2 (EC.moves 0) r0 st0 0 = some ⟨0, 3, false, false⟩ := by
  have h := (updateAI_selection EC 2 (EC.moves 0) r0 st0 0 1 (by decide)
    (by decide)).2 (by decide) (by decide)
  exact h.trans (by decide)

/-- A 64-square board holding the unmapped character `'X'` on square 0. -/
def boardX : List Char := (List.range 64).map (fun j => if j = 0 then 'X' else '0')

/-- Claim C4 (counterexample): a board cell holding the unknown non-empty
character `'X'` sets the one-hot slot of a legitimate piece class: the
zero-initialized `pieceLookup` table maps `'X'` to index 0, the index of
the white pawn `'P'`, so `encodePosition` writes 1 into the white-pawn
slot of square 0 (vector index 0). -/
theorem encodePosition_unknown_char_cex :
    boardX.getD 0 '0' = 'X'
    ∧ pieceLookup 'X' = pieceLookup 'P'
    ∧ (encodePosition boardX {}).getD 0 0 = 1 :=
  ⟨by decide, by decide, by decide⟩

/-- Claim C4 (amended): `ChessEval::encodePosition` produces a vector of
64 x 12 one-hot piece indicators followed by the 5 context flags in the
fixed order side-to-move, white kingside, white queenside, black kingside,
black queenside; the slot for square `i` and piece class `cls` is 1
exactly when the square is non-empty and `pieceLookup` maps its character
to `cls` — and since the zero-initialized lookup table maps every unknown
character to class 0, an unknown non-empty character sets the white-pawn
slot of its square (it aliases a legitimate piece class rather than using
a distinct "no piece" encoding). -/
theorem encodePosition_spec (state : List Char) (ctx : PositionContext)
    (_hlen : state.length = 64) :
    (encodePosition state ctx).length = 64 * 12 + 5
    ∧ (∀ i, i < 64 → ∀ cls, cls < 12 →
        (encodePosition state ctx).getD (i + cls * 64) 0
          = if state.getD i '0' ≠ '0' ∧ pieceLookup (state.getD i '0') = cls
            then 1 else 0)
    ∧ (encodePosition state ctx).getD (64 * 12) 0
        = (if ctx.whiteToMove then 1 else 0)
    ∧ (encodePosition state ctx).getD (64 * 12 + 1) 0
        = (if ctx.whiteCastleKingside then 1 else 0)
    ∧ (encodePosition state ctx).getD (64 * 12 + 2) 0
        = (if ctx.whiteCastleQueenside then 1 else 0)
    ∧ (encodePosition state ctx).getD (64 * 12 + 3) 0
        = (if ctx.blackCastleKingside then 1 else 0)
    ∧ (encodePosition state ctx).getD (64 * 12 + 4) 0
        = (if ctx.blackCastleQueenside then 1 else 0) := by
  obtain ⟨f0, f1, f2, f3, f4⟩ := encodePosition_flags state ctx
  refine ⟨?_, ?_, f0, f1, f2, f3, f4⟩
  · rw [encodePosition_length]; rfl
  · intro i hi cls hcls
    have hj : i + cls * 64 < 768 := by omega
    rw [encodePosition_board state ctx _ hj, encBoard_getD state _ hj]
    have hmod : (i + cls * 64) % 64 = i := by omega
    have hdiv : (i + cls * 64) / 64 = cls := by omega
    rw [hmod, hdiv]

theorem encodePosition_spec_witness :
    (encodePosition (pawnBoard 0) {}).length = 64 * 12 + 5
    ∧ (encodePosition (pawnBoard 0) {}).getD (0 + 0 * 64) 0 = 1 := by
  have h := encodePosition_spec (pawnBoard 0) {} (by decide)
  exact ⟨h.1, (h.2.1 0 (by omega) 0 (by omega)).trans (by decide)⟩

theorem loadModel_none {F : Type} (s : EvalState F) :
    loadModel none s = (false, s) := rfl

theorem loadModel_some {F : Type} (f : ModelFile F) (s : EvalState F) :
    loadModel (some f) s =
      if f.magic ≠ MAGIC_NUMBER then (false, s)
      else if f.input_size ≠ (INPUT_SIZE : Int) ∨ f.hidden1_size ≠ (HIDDEN1_SIZE : Int)
          ∨ f.hidden2_size ≠ (HIDDEN2_SIZE : Int) ∨ f.output_size ≠ (OUTPUT_SIZE : Int) then
        (false, s)
      else
        (true,
          { weights1 := f.w1, bias1 := f.b1
            weights2 := f.w2, bias2 := f.b2
            weights3 := f.w3, bias3 := f.b3
            metrics := { f.metrics with
              initial_average_error := f.metrics.running_average_error }
            castleStatus := f.castleStatus
            currentTurnNo := f.currentTurnNo }) := rfl

/-- A concrete evaluator state (over `Int` scalars) whose metrics have
`initial_average_error = 5` and `running_average_error = 3`. -/
def sEx : EvalState Int :=
  ⟨[[1]], [2], [[3]], [4], [[5]], [6], ⟨7, 8, 9, 10, 11, 5, 3, 100⟩, 12, 13⟩

/-- Claim C5 (counterexample): `saveModel` followed by `loadModel` of the
same file succeeds but does not reproduce the metrics record bit-identically:
the loaded `initial_average_error` (5 before saving) is overwritten with
the loaded `running_average_error` (3). -/
theorem saveLoad_metrics_cex :
    (loadModel (some (saveModel sEx)) sEx).1 = true
    ∧ (loadModel (some (saveModel sEx)) sEx).2 ≠ sEx
    ∧ (loadModel (some (saveModel sEx)) sEx).2.metrics.initial_average_error = 3
    ∧ sEx.metrics.initial_average_error = 5 :=
  ⟨by decide, by decide, by decide, by decide⟩

/-- Claim C5 (amended): `saveModel` followed by `loadModel` of that file
succeeds and reproduces bit-identical weight matrices, bias vectors and
metrics — except `metrics.initial_average_error`, which `loadModel`
overwrites with the saved `running_average_error`. -/
theorem saveModel_loadModel_roundtrip {F : Type} (s t : EvalState F) :
    loadModel (some (saveModel s)) t =
      (true, { s with metrics := { s.metrics with
        initial_average_error := s.metrics.running_average_error } }) := by
  rw [loadModel_some]
  rw [if_neg (by simp [saveModel]), if_neg (by simp [saveModel])]
  rfl

/-- Claim C6: `loadModel` returns `false` and leaves the in-memory
weights, biases and metrics untouched when the file is missing, the
stored magic number differs from `MAGIC_NUMBER`, or any stored
architecture dimension differs from the current configuration. -/
theorem loadModel_fail_closed {F : Type} (file : Option (ModelFile F))
    (s : EvalState F)
    (h : file = none ∨ ∃ f, file = some f ∧ (f.magic ≠ MAGIC_NUMBER
      ∨ f.input_size ≠ (INPUT_SIZE : Int) ∨ f.hidden1_size ≠ (HIDDEN1_SIZE : Int)
      ∨ f.hidden2_size ≠ (HIDDEN2_SIZE : Int) ∨ f.output_size ≠ (OUTPUT_SIZE : Int))) :
    loadModel file s = (false, s) := by
  rcases h with rfl | ⟨f, rfl, hf⟩
  · rfl
  · rw [loadModel_some]
    by_cases hm : f.magic ≠ MAGIC_NUMBER
    · rw [if_pos hm]
    · rcases hf with hm' | hd
      · exact absurd hm' hm
      · rw [if_neg hm, if_pos hd]

/-- A model file with a wrong magic number (over `Int` scalars). -/
def badFile : ModelFile Int :=
  ⟨0, 773, 256, 64, 1, [], [], [], [], [], [], ⟨0, 0, 0, 0, 0, 0, 0, 0⟩, 0, 0⟩

theorem loadModel_fail_closed_witness :
    loadModel (some badFile) sEx = (false, sEx) :=
  loadModel_fail_closed (some badFile) sEx
    (Or.inr ⟨badFile, rfl, Or.inl (by decide)⟩)

/-- A gradient step that would visibly change the state, used to exhibit
that the training guard ignores the step entirely. -/
def junkStep : EvalState Int → List Char → Int → Int → PositionContext → EvalState Int :=
  fun _ _ _ _ _ => ⟨[], [], [], [], [], [], ⟨0, 0, 0, 0, 0, 0, 0, 0⟩, 0, 0⟩

/-- Claim C7: `ChessEval::train` returns without taking any gradient step
when the target magnitude exceeds the checkmate-scale threshold 5000: the
weights, biases and metrics are exactly as before the call, whatever the
gradient step would have done. -/
theorem train_checkmate_guard {F : Type}
    (stepFn : EvalState F → List Char → Int → F → PositionContext → EvalState F)
    (s : EvalState F) (state : List Char) (stockfish_eval : Int)
    (learning_rate : F) (ctx : PositionContext)
    (h : 5000 < |stockfish_eval|) :
    train stepFn s state stockfish_eval learning_rate ctx = s := by
  unfold train
  rw [if_pos h]

theorem train_checkmate_guard_witness :
    train junkStep sEx [] 6000 0 {} = sEx :=
  train_checkmate_guard junkStep sEx [] 6000 0 {} (by decide)

/-- Claim C10: whenever `loadModel` returns `true`, the in-memory
`metrics.initial_average_error` equals the `running_average_error` read
from the file: the assignment after the reads overwrites the stored
initial-error baseline. -/
theorem loadModel_overwrites_initial_error {F : Type} (f : ModelFile F)
    (s : EvalState F) (h : (loadModel (some f) s).1 = true) :
    (loadModel (some f) s).2.metrics.initial_average_error
      = f.metrics.running_average_error := by
  rw [loadModel_some] at h ⊢
  by_cases hm : f.magic ≠ MAGIC_NUMBER
  · rw [if_pos hm] at h
    exact absurd h (by simp)
  · rw [if_neg hm] at h ⊢
    by_cases hd : f.input_size ≠ (INPUT_SIZE : Int) ∨ f.hidden1_size ≠ (HIDDEN1_SIZE : Int)
        ∨ f.hidden2_size ≠ (HIDDEN2_SIZE : Int) ∨ f.output_size ≠ (OUTPUT_SIZE : Int)
    · rw [if_pos hd] at h
      exact absurd h (by simp)
    · rw [if_neg hd]

theorem loadModel_overwrites_initial_error_witness :
    (loadModel (some (saveModel sEx)) sEx).1 = true
    ∧ (loadModel (some (saveModel sEx)) sEx).2.metrics.initial_average_error = 3 :=
  ⟨by decide,
    (loadModel_overwrites_initial_error (saveModel sEx) sEx (by decide)).trans
      (by decide)⟩
